import Mathlib

/-!
Verification of the `rotatelogs` utility (`src/main.rs`).

The program is a log rotator: a `LogRotator` receives text lines, appends
them (newline-terminated) to an active file at `base_path`, and rotates the
file into numbered backups `base_path.1 .. base_path.max_count` when size or
line thresholds are crossed.

Shallow embedding conventions:

* File contents are lists of characters (`Content`); each `Char` stands for
  one byte of the file (all contents of interest are ASCII).
* Paths are abstracted: the file system (`FS`) has one slot for the base
  file and one slot per backup index `i` (standing for `base_path.i`;
  `format!("{}.{}", base, i)` is injective in `i`, so indexing by `Nat` is
  faithful).  The `base_path` string itself therefore carries no
  information and is not modelled as a field.
* `u64` counters are `Nat` with explicit `% 2 ^ 64` where the source does
  `u64` arithmetic.
* Fallible file-system calls (`write_all`, `flush`, `open`, `sync_all`,
  `remove_file`, `rename`, `copy`, `set_len`) are modelled in a state monad
  `M` that consults an *error oracle*: a list of `Option Err`, one entry
  consumed per primitive call (an exhausted oracle means every remaining
  call succeeds).  `Err.notFound` models the error of opening a missing
  file; `Err.injected n` is an arbitrary injected I/O error.  The `?`
  operator of the source is the monad's `bind` (short-circuit on error).
* `BufWriter` buffering is flattened: `write_line` flushes after every
  line, so the buffer is always empty at operation boundaries; a successful
  `write_all` is modelled as appending directly to the base file and
  `flush` as a fallible no-op.
* A ghost field `rotations` (not in the source) counts invocations of
  `rotate`, so that "a rotation is triggered" is observable in theorems.
-/

/-- The content of one file, as its list of bytes. -/
abbrev Content := List Char

/-- I/O errors: `notFound` for opening a missing file, `injected n` for an
arbitrary error injected by the oracle. -/
inductive Err where
  | notFound : Err
  | injected : Nat → Err
deriving DecidableEq, Repr

/-- The part of the file system the rotator touches: the base file
(`base_path`) and the numbered backups (`backups i` stands for
`base_path.i`).  `none` means the file does not exist. -/
structure FS where
  base : Option Content
  backups : Nat → Option Content

/-- Model of `struct LogRotator` of the source.  `current_file` records whether the
`Option<BufWriter<File>>` handle is `Some`; `rotations` is ghost
instrumentation counting calls to `rotate` (not a source field). -/
structure LogRotator where
  max_size : Nat
  max_lines : Option Nat
  max_count : Nat
  current_file : Bool
  current_size : Nat
  current_lines : Nat
  rotations : Nat

/-- The full state of a run: the rotator (`&mut self`), the file system,
and the error oracle still to be consumed. -/
structure RotSt where
  rotator : LogRotator
  fs : FS
  oracle : List (Option Err)

/-- The constant `2 ^ 64`, the modulus of `u64` arithmetic (as a literal, so that
arithmetic on it evaluates fast). -/
def u64Size : Nat := 18446744073709551616

theorem u64Size_eq : u64Size = 2 ^ 64 := by decide

deriving instance DecidableEq for Except

/-- The run monad: state plus short-circuiting errors (Rust's `?`). -/
def M (α : Type) : Type := RotSt → Except Err α × RotSt

instance : Monad M where
  pure a := fun s => (Except.ok a, s)
  bind m f := fun s =>
    match m s with
    | (Except.ok a, s₁) => f a s₁
    | (Except.error e, s₁) => (Except.error e, s₁)

/-- Pop the next outcome from the oracle (an exhausted oracle yields
success). -/
def oraclePop : List (Option Err) → Option Err × List (Option Err)
  | [] => (none, [])
  | o :: os => (o, os)

/-- Read the whole state (models reading `self` and metadata). -/
def getSt : M RotSt := fun s => (Except.ok s, s)

/-- Update the rotator fields (an infallible `self.x = v`). -/
def modifyRot (f : LogRotator → LogRotator) : M Unit := fun s =>
  (Except.ok (), ⟨f s.rotator, s.fs, s.oracle⟩)

/-- Replace the rotator wholesale (the `Ok(Self { .. })` of `new`). -/
def setRot (r : LogRotator) : M Unit := modifyRot fun _ => r

/-- An infallible file-system query (`Path::exists` returns a plain
`bool`, not a `Result`, and consumes no oracle entry). -/
def check (p : FS → Bool) : M Bool := fun s => (Except.ok (p s.fs), s)

/-- A fallible primitive call: consume one oracle entry; on `some e` fail
with `e` and perform no effect, on success apply `eff` to the file
system. -/
def prim (eff : FS → FS) : M Unit := fun s =>
  match oraclePop s.oracle with
  | (some e, os) => (Except.error e, ⟨s.rotator, s.fs, os⟩)
  | (none, os) => (Except.ok (), ⟨s.rotator, eff s.fs, os⟩)

/-- A fallible primitive call that additionally requires a guard on the
file system (e.g. `File::open` without `create` fails with `notFound` on a
missing file). -/
def primGuard (p : FS → Bool) (eff : FS → FS) : M Unit := fun s =>
  match oraclePop s.oracle with
  | (some e, os) => (Except.error e, ⟨s.rotator, s.fs, os⟩)
  | (none, os) =>
      if p s.fs then (Except.ok (), ⟨s.rotator, eff s.fs, os⟩)
      else (Except.error Err.notFound, ⟨s.rotator, s.fs, os⟩)

/-- One `read_until(b'\n', buf)` call: the consumed chunk (up to and
including the first newline) and the remaining input. -/
def readUntilNL : Content → Content × Content
  | [] => ([], [])
  | c :: rest =>
      if c = '\n' then ([c], rest)
      else
        let p := readUntilNL rest
        (c :: p.1, p.2)

theorem readUntilNL_snd_length_le : ∀ l : Content, (readUntilNL l).2.length ≤ l.length := by
  intro l
  induction l with
  | nil => simp [readUntilNL]
  | cons c rest ih =>
      by_cases h : c = '\n'
      · simp [readUntilNL, h]
      · simp only [readUntilNL, h, if_false]
        simpa using Nat.le_succ_of_le ih

/-- The line-counting loop of `LogRotator::new`: repeatedly `read_until`
newline, and count the chunks that end with a newline byte
(`buffer.ends_with(b"\n")`).  Each loop iteration consumes at least one
byte, so the input length is enough fuel; the fuel only makes the
recursion structural. -/
def countLoop : Nat → Content → Nat
  | _, [] => 0
  | 0, _ :: _ => 0
  | fuel + 1, c :: rest =>
      let p := readUntilNL (c :: rest)
      (if p.1.getLast? = some '\n' then 1 else 0) + countLoop fuel p.2

/-- The number of newline-terminated lines of a file, as `LogRotator::new`
counts them. -/
def countTerminated (l : Content) : Nat := countLoop l.length l

/-- Model of `LogRotator::new`: open (create, append) the base file, read its
length, count its newline-terminated lines when non-empty, and build the
rotator.  The `read_until` scan is modelled as a pure scan of the content
already known to be in the file. -/
def newMk (maxSize : Nat) (maxLines : Option Nat) (maxCount : Nat) : M Unit := do
  -- OpenOptions::new().create(true).append(true).open(path)?
  prim (fun fs => { fs with base := some (fs.base.getD []) })
  -- file.metadata()?  (reads the length, no file-system effect)
  prim id
  let s ← getSt
  let content := s.fs.base.getD []
  let size := content.length % u64Size
  let cl ←
    if 0 < size then do
      -- File::open(path)? for the line-counting scan
      primGuard (fun fs => fs.base.isSome) id
      pure (countTerminated content % u64Size)
    else
      pure 0
  setRot { max_size := maxSize, max_lines := maxLines, max_count := maxCount,
           current_file := true, current_size := size, current_lines := cl,
           rotations := 0 }

/-- The backup-shifting loop of `rotate`:
`for i in (1..=max_count).rev() { ... }`, here running `i` from the second
argument down to `1`.  For each existing `base_path.i`: delete it when
`i == max_count`, otherwise rename it to `base_path.(i+1)`. -/
def rotateShift (maxCount : Nat) : Nat → M Unit
  | 0 => pure ()
  | i + 1 => do
      let ex ← check fun fs => (fs.backups (i + 1)).isSome
      if ex then
        if i + 1 = maxCount then
          -- fs::remove_file(&old_path)?
          primGuard (fun fs => (fs.backups (i + 1)).isSome)
            (fun fs => { fs with backups := fun j => if j = i + 1 then none else fs.backups j })
        else
          -- fs::rename(&old_path, &new_path)?
          primGuard (fun fs => (fs.backups (i + 1)).isSome)
            (fun fs => { fs with backups :=
              fun j => if j = i + 1 then none else if j = i + 1 + 1 then fs.backups (i + 1) else fs.backups j })
      rotateShift maxCount i

/-- Model of `LogRotator::rotate`. -/
def rotate : M Unit := do
  -- ghost instrumentation (not in the source): count rotate invocations
  modifyRot fun r => { r with rotations := r.rotations + 1 }
  let s₀ ← getSt
  -- if let Some(mut writer) = self.current_file.take() { writer.flush()?; drop(writer); }
  if s₀.rotator.current_file then
    modifyRot fun r => { r with current_file := false }
    prim id
  -- let file = std::fs::File::open(&self.base_path)?;
  primGuard (fun fs => fs.base.isSome) id
  -- file.sync_all()?; drop(file); thread::sleep(10ms): no file-system effect
  prim id
  -- the shift loop
  rotateShift s₀.rotator.max_count s₀.rotator.max_count
  -- if Path::new(&self.base_path).exists() { copy to .1, then truncate }
  let exBase ← check fun fs => fs.base.isSome
  if exBase then
    -- fs::copy(&self.base_path, &rotated_path)?
    primGuard (fun fs => fs.base.isSome)
      (fun fs => { fs with backups := fun j => if j = 1 then fs.base else fs.backups j })
    -- OpenOptions::new().write(true).truncate(true).open(&self.base_path)?
    primGuard (fun fs => fs.base.isSome) (fun fs => { fs with base := some [] })
    -- file.set_len(0)?
    prim (fun fs => { fs with base := some [] })
  -- OpenOptions::new().create(true).append(true).open(&self.base_path)?
  prim (fun fs => { fs with base := some (fs.base.getD []) })
  modifyRot fun r => { r with current_file := true, current_size := 0, current_lines := 0 }

/-- Model of `Option::is_some_and` of the source: `false` on `none`, otherwise the
predicate applied to the value. -/
def isSomeAnd (p : Nat → Bool) : Option Nat → Bool
  | none => false
  | some mx => p mx

/-- Model of `LogRotator::write_line`: write the line and a newline, flush, bump the
counters, then check the thresholds and rotate if one is exceeded. -/
def write_line (line : Content) : M Unit := do
  -- let line_len = line.as_bytes().len() as u64;
  let lineLen := line.length % u64Size
  let lineWithNL := (lineLen + 1) % u64Size
  let s ← getSt
  -- if let Some(ref mut writer) = self.current_file { ... }
  if s.rotator.current_file then
    prim (fun fs => { fs with base := some (fs.base.getD [] ++ line) })
    prim (fun fs => { fs with base := some (fs.base.getD [] ++ ['\n']) })
    prim id
    modifyRot fun r => { r with
      current_size := (r.current_size + lineWithNL) % u64Size,
      current_lines := (r.current_lines + 1) % u64Size }
  let s₂ ← getSt
  let size_exceeded : Bool :=
    decide (0 < s₂.rotator.max_size) && decide (s₂.rotator.max_size < s₂.rotator.current_size)
  let lines_exceeded : Bool :=
    isSomeAnd (fun mx => decide (mx ≤ s₂.rotator.current_lines)) s₂.rotator.max_lines
  if size_exceeded || lines_exceeded then
    rotate

/-- Append a sequence of lines, one `write_line` per element (the driving
loop of `main`). -/
def writeSeq : List Content → M Unit
  | [] => pure ()
  | l :: ls => do
      write_line l
      writeSeq ls

/-- Driver for rotation-chain claims: overwrite the active file's content
(standing for the writes of one epoch) — not a source operation. -/
def setBaseContent (c : Content) : M Unit := fun s =>
  (Except.ok (), ⟨s.rotator, { s.fs with base := some c }, s.oracle⟩)

/-- Perform one rotation per epoch content: set the active file to the
epoch's content, then `rotate`. -/
def rotateEpochs : List Content → M Unit
  | [] => pure ()
  | c :: cs => do
      setBaseContent c
      rotate
      rotateEpochs cs

/-- The startup sequence of `main`: construct the rotator, then rotate once
if `--rotate` was passed, all before any input line is read. -/
def startupRun (maxSize : Nat) (maxLines : Option Nat) (maxCount : Nat)
    (rotateFlag : Bool) : M Unit := do
  newMk maxSize maxLines maxCount
  if rotateFlag then
    rotate

/-- Placeholder rotator for states before `new` has run. -/
def emptyRotator : LogRotator :=
  ⟨0, none, 0, false, 0, 0, 0⟩

/-- Total byte cost of a line sequence: each line's length plus one
newline. -/
def totalBytes (ls : List Content) : Nat :=
  (ls.map fun l => l.length + 1).sum

/-- The same total as computed by the `u64` arithmetic of the source. -/
def modTotalBytes (ls : List Content) : Nat :=
  (ls.map fun l => (l.length % u64Size + 1) % u64Size).sum

/-- The bytes `write_line` appends for a sequence of lines: each line
followed by a newline, in order. -/
def joinLines (ls : List Content) : Content :=
  ls.foldr (fun l acc => l ++ '\n' :: acc) []

/-! Unfolding lemmas for the monad. -/

theorem bind_run {α β : Type} (m : M α) (f : α → M β) (s : RotSt) :
    (m >>= f) s = match m s with
      | (Except.ok a, s₁) => f a s₁
      | (Except.error e, s₁) => (Except.error e, s₁) := rfl

theorem pure_run {α : Type} (a : α) (s : RotSt) :
    (pure a : M α) s = (Except.ok a, s) := rfl

theorem check_run (p : FS → Bool) (s : RotSt) : check p s = (Except.ok (p s.fs), s) := rfl

theorem prim_run (eff : FS → FS) (r : LogRotator) (fs : FS) :
    prim eff ⟨r, fs, []⟩ = (Except.ok (), ⟨r, eff fs, []⟩) := rfl

theorem primGuard_run_pass (p : FS → Bool) (eff : FS → FS) (r : LogRotator) (fs : FS)
    (hp : p fs = true) : primGuard p eff ⟨r, fs, []⟩ = (Except.ok (), ⟨r, eff fs, []⟩) := by
  simp [primGuard, oraclePop, hp]

theorem bind_run_ok {α β : Type} {m : M α} {s s₁ : RotSt} {a : α}
    (hm : m s = (Except.ok a, s₁)) (f : α → M β) : (m >>= f) s = f a s₁ := by
  rw [bind_run, hm]

/-! The net effect of the shift loop. -/

/-- The pure effect on the backups of one iteration of the shift loop at
index `i`. -/
def shiftStepPure (maxCount i : Nat) (h : Nat → Option Content) : Nat → Option Content :=
  if (h i).isSome then
    if i = maxCount then fun j => if j = i then none else h j
    else fun j => if j = i then none else if j = i + 1 then h i else h j
  else h

/-- The pure effect on the backups of the shift loop run from index `i`
down to `1`. -/
def shiftPure (maxCount : Nat) : (Nat → Option Content) → Nat → (Nat → Option Content)
  | h, 0 => h
  | h, i + 1 => shiftPure maxCount (shiftStepPure maxCount (i + 1) h) i

/-- On an all-success oracle, the shift loop succeeds and rearranges the
backups as `shiftPure` describes, touching nothing else. -/
theorem rotateShift_run (maxCount : Nat) :
    ∀ (i : Nat) (r : LogRotator) (b : Option Content) (h : Nat → Option Content),
    rotateShift maxCount i ⟨r, ⟨b, h⟩, []⟩ =
      (Except.ok (), ⟨r, ⟨b, shiftPure maxCount h i⟩, []⟩) := by
  intro i
  induction i with
  | zero => intro r b h; rfl
  | succ i ih =>
      intro r b h
      have hrec : shiftPure maxCount h (i + 1) =
          shiftPure maxCount (shiftStepPure maxCount (i + 1) h) i := rfl
      rw [hrec]
      simp only [rotateShift, bind_run, check]
      by_cases hx : (h (i + 1)).isSome
      · by_cases him : i + 1 = maxCount
        · subst him
          rw [if_pos hx, if_pos rfl, bind_run_ok (primGuard_run_pass _ _ _ _ hx), ih]
          simp [shiftStepPure, hx]
        · rw [if_pos hx, if_neg him, bind_run_ok (primGuard_run_pass _ _ _ _ hx), ih]
          simp [shiftStepPure, hx, him]
      · rw [if_neg hx, bind_run_ok (pure_run _ _), ih]
        simp [shiftStepPure, hx]

/-- Characterization of a suffix of the shift loop consisting only of
renames (`i < maxCount`): slot `1` is vacated, slots `2..i` receive their
predecessor, the boundary slot `i+1` receives slot `i` when that exists,
and higher slots are untouched. -/
theorem shiftPure_renames (maxCount : Nat) :
    ∀ (i : Nat) (h : Nat → Option Content), i < maxCount →
      (shiftPure maxCount h i 0 = h 0) ∧
      (∀ j, 1 ≤ j → j ≤ i → shiftPure maxCount h i j = if j = 1 then none else h (j - 1)) ∧
      (1 ≤ i → shiftPure maxCount h i (i + 1) = if (h i).isSome then h i else h (i + 1)) ∧
      (∀ j, i + 1 < j → shiftPure maxCount h i j = h j) := by
  intro i
  induction i with
  | zero =>
      intro h _
      exact ⟨rfl, fun j h1 h0 => absurd (Nat.le_trans h1 h0) (by omega), fun h1 => absurd h1 (by omega),
             fun j _ => rfl⟩
  | succ i ih =>
      intro h hi
      have hne : i + 1 ≠ maxCount := by omega
      have hrec : ∀ k, shiftPure maxCount h (i + 1) k =
          shiftPure maxCount (shiftStepPure maxCount (i + 1) h) i k := fun k => rfl
      have hlt : i < maxCount := by omega
      obtain ⟨ih0, ihMid, ihBound, ihHigh⟩ := ih (shiftStepPure maxCount (i + 1) h) hlt
      have hnone : ¬(h (i + 1)).isSome = true → h (i + 1) = none := by
        intro hs; cases hv : h (i + 1) with
        | none => rfl
        | some v => rw [hv] at hs; simp at hs
      have h'low : ∀ k, k ≤ i → shiftStepPure maxCount (i + 1) h k = h k := by
        intro k hk
        by_cases hs : (h (i + 1)).isSome
        · have h1 : ¬(k = i + 1) := by omega
          have h2 : ¬(k = i + 1 + 1) := by omega
          simp [shiftStepPure, hs, hne, h1, h2]
        · simp [shiftStepPure, hs]
      have h'mid : shiftStepPure maxCount (i + 1) h (i + 1) = none := by
        by_cases hs : (h (i + 1)).isSome
        · simp [shiftStepPure, hs, hne]
        · simp [shiftStepPure, hs, hnone hs]
      have h'top : shiftStepPure maxCount (i + 1) h (i + 1 + 1) =
          if (h (i + 1)).isSome then h (i + 1) else h (i + 1 + 1) := by
        by_cases hs : (h (i + 1)).isSome
        · have : ¬(i + 1 + 1 = i + 1) := by omega
          simp [shiftStepPure, hs, hne, this]
        · simp [shiftStepPure, hs]
      have h'high : ∀ k, i + 1 + 1 < k → shiftStepPure maxCount (i + 1) h k = h k := by
        intro k hk
        by_cases hs : (h (i + 1)).isSome
        · have h1 : ¬(k = i + 1) := by omega
          have h2 : ¬(k = i + 1 + 1) := by omega
          simp [shiftStepPure, hs, hne, h1, h2]
        · simp [shiftStepPure, hs]
      refine ⟨?_, ?_, ?_, ?_⟩
      · rw [hrec, ih0, h'low 0 (by omega)]
      · intro j h1 hj
        rcases Nat.lt_or_ge j (i + 1) with hlt2 | hge
        · rw [hrec, ihMid j h1 (by omega)]
          by_cases hj1 : j = 1
          · simp [hj1]
          · simp only [hj1, if_false]
            exact h'low (j - 1) (by omega)
        · have hj' : j = i + 1 := by omega
          subst hj'
          by_cases hi0 : 1 ≤ i
          · rw [hrec, ihBound hi0, h'low i (by omega), h'mid]
            by_cases hs : (h i).isSome
            · have : ¬(i + 1 = 1) := by omega
              simp [hs, this]
            · have : ¬(i + 1 = 1) := by omega
              simp [hs, this, hnone]
              cases hv : h i with
              | none => rfl
              | some v => rw [hv] at hs; simp at hs
          · have hi0' : i = 0 := by omega
            subst hi0'
            rw [hrec]
            show shiftStepPure maxCount 1 h 1 = if 1 = 1 then none else h 0
            rw [h'mid]
            simp
      · intro _
        rw [hrec, ihHigh (i + 1 + 1) (by omega), h'top]
      · intro j hj
        rw [hrec, ihHigh j (by omega), h'high j (by omega)]

/-- The net effect of the whole shift loop (retention count at least `1`):
slot `1` is vacated, slot `j` (for `2 ≤ j ≤ maxCount`) receives old slot
`j - 1`, and slots beyond `maxCount` are untouched (in particular the
oldest backup is deleted, not renamed to `maxCount + 1`). -/
theorem shiftPure_top (maxCount : Nat) (h : Nat → Option Content) (hN : 1 ≤ maxCount) :
    (shiftPure maxCount h maxCount 1 = none) ∧
    (∀ j, 2 ≤ j → j ≤ maxCount → shiftPure maxCount h maxCount j = h (j - 1)) ∧
    (∀ j, maxCount < j → shiftPure maxCount h maxCount j = h j) := by
  obtain ⟨m, rfl⟩ : ∃ m, maxCount = m + 1 := ⟨maxCount - 1, by omega⟩
  have hnone : ¬(h (m + 1)).isSome = true → h (m + 1) = none := by
    intro hs; cases hv : h (m + 1) with
    | none => rfl
    | some v => rw [hv] at hs; simp at hs
  have hdel : ∀ k, shiftStepPure (m + 1) (m + 1) h k = if k = m + 1 then none else h k := by
    intro k
    by_cases hs : (h (m + 1)).isSome
    · simp [shiftStepPure, hs]
    · simp only [shiftStepPure, hs, Bool.false_eq_true, if_false]
      by_cases hk : k = m + 1
      · rw [hk, hnone hs]; simp
      · simp [hk]
  have hrec : ∀ k, shiftPure (m + 1) h (m + 1) k =
      shiftPure (m + 1) (shiftStepPure (m + 1) (m + 1) h) m k := fun k => rfl
  obtain ⟨ih0, ihMid, ihBound, ihHigh⟩ :=
    shiftPure_renames (m + 1) m (shiftStepPure (m + 1) (m + 1) h) (by omega)
  refine ⟨?_, ?_, ?_⟩
  · by_cases hm : 1 ≤ m
    · rw [hrec, ihMid 1 le_rfl hm]; simp
    · have hm0 : m = 0 := by omega
      subst hm0
      rw [hrec]
      show shiftStepPure 1 1 h 1 = none
      rw [hdel]; simp
  · intro j h2 hj
    rcases Nat.lt_or_ge j (m + 1) with hlt2 | hge
    · rw [hrec, ihMid j (by omega) (by omega)]
      have : ¬(j = 1) := by omega
      rw [if_neg this, hdel]
      have : ¬(j - 1 = m + 1) := by omega
      simp [this]
    · have hj' : j = m + 1 := by omega
      subst hj'
      have hm : 1 ≤ m := by omega
      rw [hrec, ihBound hm, hdel, hdel]
      have h1 : ¬(m = m + 1) := by omega
      simp only [h1, if_false]
      by_cases hs : (h m).isSome
      · simp [hs]
      · have : h m = none := by
          cases hv : h m with
          | none => rfl
          | some v => rw [hv] at hs; simp at hs
        simp [hs, this]
  · intro j hj
    rw [hrec, ihHigh j (by omega), hdel]
    have : ¬(j = m + 1) := by omega
    simp [this]

theorem modifyRot_run (f : LogRotator → LogRotator) (r : LogRotator) (fs : FS)
    (o : List (Option Err)) : modifyRot f ⟨r, fs, o⟩ = (Except.ok (), ⟨f r, fs, o⟩) := rfl

/-- On an all-success oracle, with the base file present, `rotate` succeeds:
the ghost rotation counter is bumped, the size and line counters reset, a
live handle is present again, the base file is truncated to empty, backup
slot `1` receives the old base content, and the other backups are as the
shift loop leaves them. -/
theorem rotate_run (r : LogRotator) (b : Content) (h : Nat → Option Content) :
    rotate ⟨r, ⟨some b, h⟩, []⟩ =
      (Except.ok (),
       ⟨{ r with current_file := true, current_size := 0, current_lines := 0,
                 rotations := r.rotations + 1 },
        ⟨some [], fun j => if j = 1 then some b else shiftPure r.max_count h r.max_count j⟩,
        []⟩) := by
  obtain ⟨ms, ml, mc, cf, cs, cl, ro⟩ := r
  simp only [rotate, bind_run, modifyRot, getSt]
  cases cf
  · rw [if_neg (by simp)]
    rw [bind_run_ok (pure_run _ _)]
    rw [bind_run_ok (primGuard_run_pass _ _ _ _ rfl)]
    rw [bind_run_ok (prim_run _ _ _)]
    rw [bind_run_ok (rotateShift_run mc mc _ _ _)]
    rw [bind_run_ok (check_run _ _)]
    dsimp only [id_eq, Option.isSome_some]
    rw [if_pos rfl]
    rw [bind_run_ok (primGuard_run_pass _ _ _ _ rfl)]
    rw [bind_run_ok (primGuard_run_pass _ _ _ _ rfl)]
    rw [bind_run_ok (prim_run _ _ _)]
    rw [bind_run_ok (prim_run _ _ _)]
    rfl
  · rw [if_pos rfl]
    rw [bind_run_ok (modifyRot_run _ _ _ _)]
    rw [bind_run_ok (prim_run _ _ _)]
    rw [bind_run_ok (primGuard_run_pass _ _ _ _ rfl)]
    rw [bind_run_ok (prim_run _ _ _)]
    rw [bind_run_ok (rotateShift_run mc mc _ _ _)]
    rw [bind_run_ok (check_run _ _)]
    dsimp only [id_eq, Option.isSome_some]
    rw [if_pos rfl]
    rw [bind_run_ok (primGuard_run_pass _ _ _ _ rfl)]
    rw [bind_run_ok (primGuard_run_pass _ _ _ _ rfl)]
    rw [bind_run_ok (prim_run _ _ _)]
    rw [bind_run_ok (prim_run _ _ _)]
    rfl

theorem getSt_run (s : RotSt) : getSt s = (Except.ok s, s) := rfl

/-- One `write_line` on an all-success oracle (live handle): the line and a
newline are appended to the base file, the counters are bumped, and then
`rotate` runs exactly when the post-write threshold check fires. -/
theorem write_line_run (r : LogRotator) (fs : FS) (line : Content)
    (hcf : r.current_file = true) :
    write_line line ⟨r, fs, []⟩ =
      if (decide (0 < r.max_size) &&
          decide (r.max_size < (r.current_size + (line.length % u64Size + 1) % u64Size) % u64Size))
         || isSomeAnd (fun mx => decide (mx ≤ (r.current_lines + 1) % u64Size))
              r.max_lines then
        rotate ⟨{ r with
            current_size := (r.current_size + (line.length % u64Size + 1) % u64Size) % u64Size,
            current_lines := (r.current_lines + 1) % u64Size },
          ⟨some ((fs.base.getD [] ++ line) ++ ['\n']), fs.backups⟩, []⟩
      else
        (Except.ok (), ⟨{ r with
            current_size := (r.current_size + (line.length % u64Size + 1) % u64Size) % u64Size,
            current_lines := (r.current_lines + 1) % u64Size },
          ⟨some ((fs.base.getD [] ++ line) ++ ['\n']), fs.backups⟩, []⟩) := by
  obtain ⟨ms, ml, mc, cf, cs, cl, ro⟩ := r
  obtain ⟨bb, h⟩ := fs
  subst hcf
  simp only [write_line, bind_run, getSt]
  rw [if_pos trivial]
  rw [bind_run_ok (prim_run _ _ _)]
  rw [bind_run_ok (prim_run _ _ _)]
  rw [bind_run_ok (prim_run _ _ _)]
  rw [bind_run_ok (modifyRot_run _ _ _ _)]
  rw [bind_run_ok (getSt_run _)]
  dsimp only [id_eq]
  rw [ite_apply]
  split
  · rfl
  · rfl

/-- Appending a sequence of lines that never crosses a threshold: every
`write_line` succeeds, no rotation happens, the lines land in the base file
in order, and the counters advance by the bytes and lines written. -/
theorem writeSeq_ok : ∀ (ls : List Content) (r : LogRotator) (b : Content)
    (h : Nat → Option Content),
    r.current_file = true → r.current_size < u64Size → r.current_lines < u64Size →
    (0 < r.max_size → r.current_size + totalBytes ls ≤ r.max_size ∧ r.max_size < u64Size) →
    (∀ mx, r.max_lines = some mx → r.current_lines + ls.length < mx ∧ mx < u64Size) →
    writeSeq ls ⟨r, ⟨some b, h⟩, []⟩ =
      (Except.ok (),
       ⟨{ r with current_size := (r.current_size + modTotalBytes ls) % u64Size,
                 current_lines := (r.current_lines + ls.length) % u64Size },
        ⟨some (b ++ joinLines ls), h⟩, []⟩) := by
  intro ls
  induction ls with
  | nil =>
      intro r b h hcf hcs hcl _ _
      obtain ⟨ms, ml, mc, cf, cs, cl, ro⟩ := r
      simp only [writeSeq, pure_run, modTotalBytes, List.map_nil, List.sum_nil,
                 List.length_nil, Nat.add_zero, joinLines, List.foldr_nil, List.append_nil]
      rw [Nat.mod_eq_of_lt hcs, Nat.mod_eq_of_lt hcl]
  | cons l ls ih =>
      intro r b h hcf hcs hcl h3 h4
      obtain ⟨ms, ml, mc, cf, cs, cl, ro⟩ := r
      dsimp only at hcf hcs hcl h3 h4 ⊢
      have htb : totalBytes (l :: ls) = (l.length + 1) + totalBytes ls := by
        simp [totalBytes]
      have hsz' : 0 < ms →
          (cs + (l.length % u64Size + 1) % u64Size) % u64Size = cs + (l.length + 1) := by
        intro hms
        obtain ⟨hle, hU⟩ := h3 hms
        rw [htb] at hle
        have hll : l.length % u64Size = l.length := Nat.mod_eq_of_lt (by omega)
        rw [hll]
        have hl1 : (l.length + 1) % u64Size = l.length + 1 := Nat.mod_eq_of_lt (by omega)
        rw [hl1]
        exact Nat.mod_eq_of_lt (by omega)
      have hln' : ∀ mx, ml = some mx → (cl + 1) % u64Size = cl + 1 := by
        intro mx hml
        obtain ⟨hlt, hU⟩ := h4 mx hml
        have : (l :: ls).length = ls.length + 1 := rfl
        exact Nat.mod_eq_of_lt (by omega)
      have hcond : ((decide (0 < ms) &&
            decide (ms < (cs + (l.length % u64Size + 1) % u64Size) % u64Size))
           || isSomeAnd (fun mx => decide (mx ≤ (cl + 1) % u64Size)) ml) = false := by
        rw [Bool.or_eq_false_iff]
        constructor
        · by_cases hms : 0 < ms
          · obtain ⟨hle, hU⟩ := h3 hms
            rw [htb] at hle
            rw [hsz' hms, Bool.and_eq_false_iff]
            right
            rw [decide_eq_false_iff_not]
            omega
          · rw [Bool.and_eq_false_iff]
            left
            rw [decide_eq_false_iff_not]
            omega
        · cases hml : ml with
          | none => rfl
          | some mx =>
              obtain ⟨hlt, hU⟩ := h4 mx hml
              have hlen : (l :: ls).length = ls.length + 1 := rfl
              rw [hln' mx hml]
              simp only [isSomeAnd, decide_eq_false_iff_not]
              omega
      have hrun : write_line l ⟨⟨ms, ml, mc, cf, cs, cl, ro⟩, ⟨some b, h⟩, []⟩ =
          (Except.ok (), ⟨⟨ms, ml, mc, cf,
              (cs + (l.length % u64Size + 1) % u64Size) % u64Size,
              (cl + 1) % u64Size, ro⟩,
            ⟨some ((b ++ l) ++ ['\n']), h⟩, []⟩) := by
        rw [write_line_run _ ⟨some b, h⟩ l hcf]
        dsimp only
        rw [if_neg (by rw [hcond]; simp)]
        rfl
      simp only [writeSeq]
      rw [bind_run_ok hrun]
      rw [ih]
      · dsimp only
        have hmtb : modTotalBytes (l :: ls) =
            (l.length % u64Size + 1) % u64Size + modTotalBytes ls := by
          simp [modTotalBytes]
        have hjoin : joinLines (l :: ls) = l ++ '\n' :: joinLines ls := rfl
        have hlen : (l :: ls).length = ls.length + 1 := rfl
        rw [hmtb, hjoin, hlen]
        have e1 : ((cs + (l.length % u64Size + 1) % u64Size) % u64Size + modTotalBytes ls)
            % u64Size = (cs + ((l.length % u64Size + 1) % u64Size + modTotalBytes ls))
            % u64Size := by
          rw [Nat.mod_add_mod, Nat.add_assoc]
        have e2 : ((cl + 1) % u64Size + ls.length) % u64Size =
            (cl + (ls.length + 1)) % u64Size := by
          rw [Nat.mod_add_mod]
          congr 1
          omega
        have e3 : ((b ++ l) ++ ['\n']) ++ joinLines ls = b ++ (l ++ '\n' :: joinLines ls) := by
          simp
        rw [e1, e2, e3]
      · exact hcf
      · exact Nat.mod_lt _ (by decide)
      · exact Nat.mod_lt _ (by decide)
      · intro hms
        dsimp only
        obtain ⟨hle, hU⟩ := h3 hms
        rw [htb] at hle
        rw [hsz' hms]
        exact ⟨by omega, hU⟩
      · intro mx hml
        dsimp only
        obtain ⟨hlt, hU⟩ := h4 mx hml
        have hlen : (l :: ls).length = ls.length + 1 := rfl
        rw [hln' mx hml]
        exact ⟨by omega, hU⟩

/-- Construction against an existing file: the rotator is seeded with the
file's byte length and (when non-empty) its scanned line count; the file
system is untouched. -/
theorem newMk_run (maxSize : Nat) (maxLines : Option Nat) (maxCount : Nat)
    (r : LogRotator) (c : Content) (h : Nat → Option Content) :
    newMk maxSize maxLines maxCount ⟨r, ⟨some c, h⟩, []⟩ =
      (Except.ok (),
       ⟨⟨maxSize, maxLines, maxCount, true, c.length % u64Size,
         if 0 < c.length % u64Size then countTerminated c % u64Size else 0, 0⟩,
        ⟨some c, h⟩, []⟩) := by
  simp only [newMk]
  rw [bind_run_ok (prim_run _ _ _)]
  rw [bind_run_ok (prim_run _ _ _)]
  rw [bind_run_ok (getSt_run _)]
  dsimp only [id_eq, Option.getD_some]
  by_cases h0 : 0 < c.length % u64Size
  · rw [if_pos h0]
    rw [bind_run_ok (primGuard_run_pass _ _ _ _ rfl)]
    rw [show (if 0 < c.length % u64Size then countTerminated c % u64Size else 0) =
        countTerminated c % u64Size from if_pos h0]
    rfl
  · rw [if_neg h0]
    rw [show (if 0 < c.length % u64Size then countTerminated c % u64Size else 0) = 0
        from if_neg h0]
    rfl

theorem readUntilNL_append : ∀ l : Content, (readUntilNL l).1 ++ (readUntilNL l).2 = l := by
  intro l
  induction l with
  | nil => rfl
  | cons c rest ih =>
      by_cases hc : c = '\n'
      · simp [readUntilNL, hc]
      · simp only [readUntilNL, hc, if_false, List.cons_append]
        rw [ih]

theorem readUntilNL_cons_snd_le (c : Char) (rest : Content) :
    (readUntilNL (c :: rest)).2.length ≤ rest.length := by
  by_cases hc : c = '\n'
  · simp [readUntilNL, hc]
  · simp only [readUntilNL, hc, if_false]
    exact readUntilNL_snd_length_le rest

/-- Each `read_until` chunk either ends with the newline byte and contains
exactly one newline, or contains no newline and exhausts the input. -/
theorem readUntilNL_spec : ∀ l : Content,
    ((readUntilNL l).1.getLast? = some '\n' ∧ (readUntilNL l).1.count '\n' = 1) ∨
    ((readUntilNL l).1.count '\n' = 0 ∧ ¬((readUntilNL l).1.getLast? = some '\n') ∧
      (readUntilNL l).2 = []) := by
  intro l
  induction l with
  | nil =>
      right
      refine ⟨rfl, ?_, rfl⟩
      simp [readUntilNL]
  | cons c rest ih =>
      by_cases hc : c = '\n'
      · left
        subst hc
        constructor
        · simp [readUntilNL]
        · simp [readUntilNL]
      · simp only [readUntilNL, hc, if_false]
        rcases ih with ⟨hl, hc1⟩ | ⟨h0, hnl, hsnd⟩
        · left
          have hne : (readUntilNL rest).1 ≠ [] := by
            intro hnil
            rw [hnil] at hl
            simp at hl
          obtain ⟨x, xs, hxs⟩ := List.exists_cons_of_ne_nil hne
          constructor
          · rw [hxs] at hl ⊢
            simpa [List.getLast?_cons_cons] using hl
          · simp [List.count_cons, hc, hc1]
        · right
          refine ⟨?_, ?_, hsnd⟩
          · simp [List.count_cons, hc, h0]
          · rcases hxs : (readUntilNL rest).1 with _ | ⟨x, xs⟩
            · simp only [List.getLast?_singleton]
              intro hcc
              exact hc (by injection hcc)
            · rw [hxs] at hnl
              simpa [List.getLast?_cons_cons] using hnl

theorem countLoop_eq_count : ∀ (fuel : Nat) (l : Content), l.length ≤ fuel →
    countLoop fuel l = l.count '\n' := by
  intro fuel
  induction fuel with
  | zero =>
      intro l hl
      have : l = [] := List.eq_nil_of_length_eq_zero (by omega)
      subst this
      rfl
  | succ fuel ih =>
      intro l hl
      cases l with
      | nil => rfl
      | cons c rest =>
          have hsnd : (readUntilNL (c :: rest)).2.length ≤ fuel := by
            have := readUntilNL_cons_snd_le c rest
            simp only [List.length_cons] at hl
            omega
          have hcnt : (c :: rest).count '\n' =
              (readUntilNL (c :: rest)).1.count '\n' +
              (readUntilNL (c :: rest)).2.count '\n' := by
            conv_lhs => rw [← readUntilNL_append (c :: rest)]
            rw [List.count_append]
          rcases readUntilNL_spec (c :: rest) with ⟨hl1, hc1⟩ | ⟨h0, hnl, hsnd0⟩
          · show (if (readUntilNL (c :: rest)).1.getLast? = some '\n' then 1 else 0) +
                countLoop fuel (readUntilNL (c :: rest)).2 = _
            rw [if_pos hl1, ih _ hsnd, hcnt, hc1]
          · show (if (readUntilNL (c :: rest)).1.getLast? = some '\n' then 1 else 0) +
                countLoop fuel (readUntilNL (c :: rest)).2 = _
            rw [if_neg hnl, ih _ hsnd, hcnt, h0, hsnd0]

/-- The construction-time scan counts exactly the newline bytes of the
file, i.e. its newline-terminated line sequences. -/
theorem countTerminated_eq_count (l : Content) : countTerminated l = l.count '\n' :=
  countLoop_eq_count l.length l le_rfl

theorem setBaseContent_run (c : Content) (r : LogRotator) (fs : FS) (o : List (Option Err)) :
    setBaseContent c ⟨r, fs, o⟩ = (Except.ok (), ⟨r, ⟨some c, fs.backups⟩, o⟩) := rfl

/-- Driving one rotation per epoch, starting from a backup chain holding
the reversed epoch list `p`: the chain always holds the most recent epochs
newest-first, capped at the retention count. -/
theorem rotateEpochs_run (N : Nat) (hN : 1 ≤ N) :
    ∀ (cs p : List Content) (r : LogRotator) (fs : FS),
      r.max_count = N →
      (∀ j, 1 ≤ j → fs.backups j = if j ≤ N then p.reverse.get? (j - 1) else none) →
      (rotateEpochs cs ⟨r, fs, []⟩).1 = Except.ok () ∧
      (∀ j, 1 ≤ j → (rotateEpochs cs ⟨r, fs, []⟩).2.fs.backups j =
        if j ≤ N then ((p ++ cs).reverse.get? (j - 1)) else none) := by
  intro cs
  induction cs with
  | nil =>
      intro p r fs hmc hinv
      refine ⟨rfl, ?_⟩
      intro j hj
      simpa using hinv j hj
  | cons c cs ih =>
      intro p r fs hmc hinv
      obtain ⟨sh1, sh2, sh3⟩ := shiftPure_top N fs.backups hN
      have hstep : rotateEpochs (c :: cs) ⟨r, fs, []⟩ =
          rotateEpochs cs
            ⟨{ r with current_file := true, current_size := 0, current_lines := 0,
                      rotations := r.rotations + 1 },
             ⟨some [], fun j => if j = 1 then some c
                else shiftPure N fs.backups N j⟩, []⟩ := by
        simp only [rotateEpochs]
        rw [bind_run_ok (setBaseContent_run _ _ _ _)]
        rw [bind_run_ok (rotate_run _ _ _)]
        rw [hmc]
      rw [hstep]
      have hinv' : ∀ j, 1 ≤ j →
          (fun j => if j = 1 then some c else shiftPure N fs.backups N j) j =
          if j ≤ N then ((p ++ [c]).reverse.get? (j - 1)) else none := by
        intro j hj
        have hrev : (p ++ [c]).reverse = c :: p.reverse := by simp
        show (if j = 1 then some c else shiftPure N fs.backups N j) =
          if j ≤ N then ((p ++ [c]).reverse.get? (j - 1)) else none
        by_cases hj1 : j = 1
        · subst hj1
          rw [if_pos rfl, if_pos hN, hrev]
          rfl
        · rcases Nat.lt_or_ge N j with hgt | hle
          · have hnle : ¬(j ≤ N) := by omega
            rw [if_neg hj1, if_neg hnle, sh3 j hgt]
            have hb := hinv j hj
            rwa [if_neg hnle] at hb
          · have h2 : 2 ≤ j := by omega
            rw [if_neg hj1, if_pos hle, sh2 j h2 hle, hrev]
            have hb := hinv (j - 1) (by omega)
            rw [if_pos (show j - 1 ≤ N by omega)] at hb
            obtain ⟨k, hk⟩ : ∃ k, j - 1 = k + 1 := ⟨j - 2, by omega⟩
            rw [show j - 1 - 1 = k from by omega] at hb
            rw [hb, hk, List.get?_cons_succ]
      obtain ⟨hok, hbk⟩ := ih (p ++ [c])
        { r with current_file := true, current_size := 0, current_lines := 0,
                 rotations := r.rotations + 1 }
        ⟨some [], fun j => if j = 1 then some c else shiftPure N fs.backups N j⟩
        (by simpa using hmc) (fun j hj => hinv' j hj)
      refine ⟨hok, ?_⟩
      intro j hj
      have := hbk j hj
      rwa [List.append_assoc, List.singleton_append] at this

/-! Error propagation: the first failure stops the run. -/

/-- Predicate `Pe m`: when the oracle injects its first failure `e` after `k`
successes, the run of `m` either completes without reaching the failing
call (leaving it in the oracle), or returns exactly `e`, having consumed
the oracle up to and including the failing call and nothing after it —
i.e. the first error propagates immediately, with no retry and no repair.
The base file is assumed (and maintained) present, as construction
guarantees. -/
def Pe {α : Type} (m : M α) : Prop :=
  ∀ (s : RotSt) (k : Nat) (e : Err) (rest : List (Option Err)),
    s.fs.base.isSome = true →
    s.oracle = List.replicate k none ++ some e :: rest →
    ((∃ a, (m s).1 = Except.ok a) ∧ (m s).2.fs.base.isSome = true ∧
      ∃ j, (m s).2.oracle = List.replicate j none ++ some e :: rest)
    ∨ ((m s).1 = Except.error e ∧ (m s).2.oracle = rest)

theorem pe_pure {α : Type} (a : α) : Pe (pure a : M α) := by
  intro s k e rest hinv horc
  exact Or.inl ⟨⟨a, rfl⟩, hinv, k, horc⟩

theorem pe_getSt : Pe getSt := by
  intro s k e rest hinv horc
  exact Or.inl ⟨⟨s, rfl⟩, hinv, k, horc⟩

theorem pe_check (p : FS → Bool) : Pe (check p) := by
  intro s k e rest hinv horc
  exact Or.inl ⟨⟨p s.fs, rfl⟩, hinv, k, horc⟩

theorem pe_modifyRot (f : LogRotator → LogRotator) : Pe (modifyRot f) := by
  intro s k e rest hinv horc
  exact Or.inl ⟨⟨(), rfl⟩, hinv, k, horc⟩

theorem pe_prim (eff : FS → FS)
    (heff : ∀ fs, fs.base.isSome = true → (eff fs).base.isSome = true) : Pe (prim eff) := by
  intro s k e rest hinv horc
  cases k with
  | zero =>
      right
      simp only [List.replicate, List.nil_append] at horc
      simp [prim, horc, oraclePop]
  | succ k =>
      left
      rw [List.replicate_succ, List.cons_append] at horc
      refine ⟨⟨(), ?_⟩, ?_, k, ?_⟩ <;> simp [prim, horc, oraclePop, heff _ hinv]

theorem pe_primGuard (p : FS → Bool) (eff : FS → FS)
    (hp : ∀ fs, fs.base.isSome = true → p fs = true)
    (heff : ∀ fs, fs.base.isSome = true → (eff fs).base.isSome = true) :
    Pe (primGuard p eff) := by
  intro s k e rest hinv horc
  cases k with
  | zero =>
      right
      simp only [List.replicate, List.nil_append] at horc
      simp [primGuard, horc, oraclePop]
  | succ k =>
      left
      rw [List.replicate_succ, List.cons_append] at horc
      refine ⟨⟨(), ?_⟩, ?_, k, ?_⟩ <;>
        simp [primGuard, horc, oraclePop, hp _ hinv, heff _ hinv]

theorem pe_bind {α β : Type} {m : M α} {f : α → M β}
    (hm : Pe m) (hf : ∀ a, Pe (f a)) : Pe (m >>= f) := by
  intro s k e rest hinv horc
  rcases hm s k e rest hinv horc with ⟨⟨a, hok⟩, hinv', j, horc'⟩ | ⟨herr, horc'⟩
  · have hms : m s = (Except.ok a, (m s).2) := by
      rw [← hok]
    rcases hf a (m s).2 j e rest hinv' horc' with ⟨⟨b, hok2⟩, hinv2, j2, horc2⟩ | ⟨herr2, horc2⟩
    · left
      refine ⟨⟨b, ?_⟩, ?_, j2, ?_⟩ <;> rw [bind_run, hms] <;> assumption
    · right
      constructor <;> rw [bind_run, hms] <;> assumption
  · have hms : m s = (Except.error e, (m s).2) := by
      rw [← herr]
    right
    constructor <;> rw [bind_run, hms]
    exact horc'

theorem pe_ite {c : Prop} [Decidable c] {m n : M Unit}
    (hm : Pe m) (hn : Pe n) : Pe (if c then m else n) := by
  by_cases hc : c
  · rwa [if_pos hc]
  · rwa [if_neg hc]

theorem primGuard_cases (q : FS → Bool) (eff : FS → FS) (s : RotSt) (k : Nat) (e : Err)
    (rest : List (Option Err)) (hq : q s.fs = true)
    (horc : s.oracle = List.replicate k none ++ some e :: rest) :
    (k = 0 ∧ primGuard q eff s = (Except.error e, ⟨s.rotator, s.fs, rest⟩)) ∨
    (∃ k', k = k' + 1 ∧ primGuard q eff s =
      (Except.ok (), ⟨s.rotator, eff s.fs, List.replicate k' none ++ some e :: rest⟩)) := by
  cases k with
  | zero =>
      left
      refine ⟨rfl, ?_⟩
      simp only [List.replicate, List.nil_append] at horc
      simp [primGuard, horc, oraclePop]
  | succ k =>
      right
      refine ⟨k, rfl, ?_⟩
      rw [List.replicate_succ, List.cons_append] at horc
      simp [primGuard, horc, oraclePop, hq]

theorem pe_rotateShift (maxCount : Nat) : ∀ i, Pe (rotateShift maxCount i) := by
  intro i
  induction i with
  | zero => exact pe_pure ()
  | succ i ih =>
      intro s k e rest hinv horc
      have hshape : rotateShift maxCount (i + 1) s =
          (if (s.fs.backups (i + 1)).isSome = true then
             (if i + 1 = maxCount then
                (primGuard (fun fs => (fs.backups (i + 1)).isSome)
                  (fun fs => { fs with backups := fun j => if j = i + 1 then none else fs.backups j })
                  >>= fun _ => rotateShift maxCount i)
              else
                (primGuard (fun fs => (fs.backups (i + 1)).isSome)
                  (fun fs => { fs with backups :=
                    fun j => if j = i + 1 then none else if j = i + 1 + 1 then fs.backups (i + 1) else fs.backups j })
                  >>= fun _ => rotateShift maxCount i))
           else (pure PUnit.unit >>= fun _ => rotateShift maxCount i)) s := rfl
      by_cases hq : (s.fs.backups (i + 1)).isSome = true
      · rw [hshape, if_pos hq]
        by_cases him : i + 1 = maxCount
        · rw [if_pos him]
          rcases primGuard_cases (fun fs => (fs.backups (i + 1)).isSome)
              (fun fs => { fs with backups := fun j => if j = i + 1 then none else fs.backups j })
              s k e rest hq horc with ⟨hk0, hpg⟩ | ⟨k', hk, hpg⟩
          · right
            rw [bind_run, hpg]
            exact ⟨rfl, rfl⟩
          · rw [bind_run, hpg]
            exact ih _ k' e rest hinv rfl
        · rw [if_neg him]
          rcases primGuard_cases (fun fs => (fs.backups (i + 1)).isSome)
              (fun fs => { fs with backups :=
                fun j => if j = i + 1 then none else if j = i + 1 + 1 then fs.backups (i + 1) else fs.backups j })
              s k e rest hq horc with ⟨hk0, hpg⟩ | ⟨k', hk, hpg⟩
          · right
            rw [bind_run, hpg]
            exact ⟨rfl, rfl⟩
          · rw [bind_run, hpg]
            exact ih _ k' e rest hinv rfl
      · rw [hshape, if_neg hq]
        exact ih s k e rest hinv horc

theorem pe_rotate : Pe rotate := by
  simp only [rotate]
  refine pe_bind (pe_modifyRot _) fun _ => ?_
  refine pe_bind pe_getSt fun s₀ => ?_
  refine pe_ite ?_ ?_
  · refine pe_bind (pe_modifyRot _) fun _ => ?_
    refine pe_bind (pe_prim id fun fs h => h) fun _ => ?_
    refine pe_bind (pe_primGuard _ id (fun fs h => h) (fun fs h => h)) fun _ => ?_
    refine pe_bind (pe_prim id fun fs h => h) fun _ => ?_
    refine pe_bind (pe_rotateShift _ _) fun _ => ?_
    refine pe_bind (pe_check _) fun exB => ?_
    refine pe_ite ?_ ?_
    · refine pe_bind (pe_primGuard _ _ (fun fs h => h) (fun fs h => h)) fun _ => ?_
      refine pe_bind (pe_primGuard _ _ (fun fs h => h) (fun fs h => rfl)) fun _ => ?_
      refine pe_bind (pe_prim _ fun fs h => rfl) fun _ => ?_
      refine pe_bind (pe_prim _ fun fs h => rfl) fun _ => ?_
      exact pe_modifyRot _
    · refine pe_bind (pe_pure _) fun _ => ?_
      refine pe_bind (pe_prim _ fun fs h => rfl) fun _ => ?_
      exact pe_modifyRot _
  · refine pe_bind (pe_pure _) fun _ => ?_
    refine pe_bind (pe_primGuard _ id (fun fs h => h) (fun fs h => h)) fun _ => ?_
    refine pe_bind (pe_prim id fun fs h => h) fun _ => ?_
    refine pe_bind (pe_rotateShift _ _) fun _ => ?_
    refine pe_bind (pe_check _) fun exB => ?_
    refine pe_ite ?_ ?_
    · refine pe_bind (pe_primGuard _ _ (fun fs h => h) (fun fs h => h)) fun _ => ?_
      refine pe_bind (pe_primGuard _ _ (fun fs h => h) (fun fs h => rfl)) fun _ => ?_
      refine pe_bind (pe_prim _ fun fs h => rfl) fun _ => ?_
      refine pe_bind (pe_prim _ fun fs h => rfl) fun _ => ?_
      exact pe_modifyRot _
    · refine pe_bind (pe_pure _) fun _ => ?_
      refine pe_bind (pe_prim _ fun fs h => rfl) fun _ => ?_
      exact pe_modifyRot _

theorem pe_write_line (line : Content) : Pe (write_line line) := by
  simp only [write_line]
  refine pe_bind pe_getSt fun s => ?_
  refine pe_ite ?_ ?_
  · refine pe_bind (pe_prim _ fun fs h => rfl) fun _ => ?_
    refine pe_bind (pe_prim _ fun fs h => rfl) fun _ => ?_
    refine pe_bind (pe_prim id fun fs h => h) fun _ => ?_
    refine pe_bind (pe_modifyRot _) fun _ => ?_
    refine pe_bind pe_getSt fun s₂ => ?_
    exact pe_ite pe_rotate (pe_pure _)
  · refine pe_bind (pe_pure _) fun _ => ?_
    refine pe_bind pe_getSt fun s₂ => ?_
    exact pe_ite pe_rotate (pe_pure _)

/-! The claims. -/

/-- Claim C6: after every successful call to `rotate()`, `size_counter` and
`line_counter` are both zero, the active file at `base_path` is empty
(length 0), and a live active handle is present again — the transient
handle-closed state is not observable in the state `rotate` returns. -/
theorem claim_C6 (r : LogRotator) (b : Content) (h : Nat → Option Content) :
    (rotate ⟨r, ⟨some b, h⟩, []⟩).1 = Except.ok () ∧
    (rotate ⟨r, ⟨some b, h⟩, []⟩).2.rotator.current_size = 0 ∧
    (rotate ⟨r, ⟨some b, h⟩, []⟩).2.rotator.current_lines = 0 ∧
    (rotate ⟨r, ⟨some b, h⟩, []⟩).2.rotator.current_file = true ∧
    (rotate ⟨r, ⟨some b, h⟩, []⟩).2.fs.base = some [] := by
  rw [rotate_run]
  exact ⟨rfl, rfl, rfl, rfl, rfl⟩

/-- Claim C5: the backup-chain shift of `rotate` (iterating `i` from
`retention_count` down to `1`, deleting `base_path.i` at
`i = retention_count` and renaming it to `base_path.(i+1)` otherwise,
skipping missing files) vacates slot `1`, moves each existing backup `i`
(for `i < retention_count`) to `i + 1` unclobbered, and leaves slots above
`retention_count` untouched. -/
theorem claim_C5 (N : Nat) (r : LogRotator) (b : Option Content) (h : Nat → Option Content) :
    (rotateShift N N ⟨r, ⟨b, h⟩, []⟩).1 = Except.ok () ∧
    (1 ≤ N → (rotateShift N N ⟨r, ⟨b, h⟩, []⟩).2.fs.backups 1 = none) ∧
    (∀ j, 2 ≤ j → j ≤ N → (rotateShift N N ⟨r, ⟨b, h⟩, []⟩).2.fs.backups j = h (j - 1)) ∧
    (∀ j, N < j → (rotateShift N N ⟨r, ⟨b, h⟩, []⟩).2.fs.backups j = h j) ∧
    (∀ i, 1 ≤ i → i < N → (rotateShift N N ⟨r, ⟨b, h⟩, []⟩).2.fs.backups (i + 1) = h i) := by
  rw [rotateShift_run]
  by_cases hN : 1 ≤ N
  · obtain ⟨s1, s2, s3⟩ := shiftPure_top N h hN
    refine ⟨rfl, fun _ => s1, s2, s3, ?_⟩
    intro i h1 hiN
    exact s2 (i + 1) (by omega) (by omega)
  · have hN0 : N = 0 := by omega
    subst hN0
    exact ⟨rfl, fun hc => absurd hc (by omega),
           fun j h2 h0 => absurd (Nat.le_trans h2 h0) (by omega),
           fun j _ => rfl, fun i h1 h0 => absurd (Nat.lt_of_le_of_lt h1 h0) (by omega)⟩

theorem claim_C5_witness :
    ((rotateShift 2 2 ⟨emptyRotator, ⟨some [],
        fun j => if j = 1 then some ['x'] else if j = 2 then some ['y'] else none⟩,
        []⟩).2.fs.backups 1 = none) ∧
    ((rotateShift 2 2 ⟨emptyRotator, ⟨some [],
        fun j => if j = 1 then some ['x'] else if j = 2 then some ['y'] else none⟩,
        []⟩).2.fs.backups 2 = some ['x']) ∧
    ((rotateShift 2 2 ⟨emptyRotator, ⟨some [],
        fun j => if j = 1 then some ['x'] else if j = 2 then some ['y'] else none⟩,
        []⟩).2.fs.backups 3 = none) := by
  have h := claim_C5 2 emptyRotator (some [])
    (fun j => if j = 1 then some ['x'] else if j = 2 then some ['y'] else none)
  exact ⟨h.2.1 (by decide),
         (h.2.2.1 2 (by decide) (by decide)).trans (by decide),
         (h.2.2.2.1 3 (by decide)).trans (by decide)⟩

/-- Claim C3: with `max_size_bytes > 0`, a `write_line` whose line pushes
the cumulative size beyond `max_size_bytes` triggers exactly one rotation,
after the line is fully written and flushed: afterwards the whole content
including that line sits in `base_path.1` and the line is not lost. -/
theorem claim_C3 (r : LogRotator) (b : Content) (h : Nat → Option Content) (line : Content)
    (hcf : r.current_file = true) (hms : 0 < r.max_size) (hU : r.max_size < u64Size)
    (hover : r.max_size < r.current_size + (line.length + 1))
    (hnw : r.current_size + (line.length + 1) < u64Size) :
    (write_line line ⟨r, ⟨some b, h⟩, []⟩).1 = Except.ok () ∧
    (write_line line ⟨r, ⟨some b, h⟩, []⟩).2.rotator.rotations = r.rotations + 1 ∧
    (write_line line ⟨r, ⟨some b, h⟩, []⟩).2.fs.backups 1 = some ((b ++ line) ++ ['\n']) ∧
    (write_line line ⟨r, ⟨some b, h⟩, []⟩).2.fs.base = some [] := by
  have hll : line.length % u64Size = line.length := Nat.mod_eq_of_lt (by omega)
  have hl1 : (line.length + 1) % u64Size = line.length + 1 := Nat.mod_eq_of_lt (by omega)
  have hns : (r.current_size + (line.length % u64Size + 1) % u64Size) % u64Size =
      r.current_size + (line.length + 1) := by
    rw [hll, hl1]; exact Nat.mod_eq_of_lt (by omega)
  have hcond : ((decide (0 < r.max_size) &&
      decide (r.max_size <
        (r.current_size + (line.length % u64Size + 1) % u64Size) % u64Size))
     || isSomeAnd (fun mx => decide (mx ≤ (r.current_lines + 1) % u64Size))
          r.max_lines) = true := by
    rw [hns, Bool.or_eq_true, Bool.and_eq_true]
    exact Or.inl ⟨by simpa using hms, by simpa using hover⟩
  rw [write_line_run r ⟨some b, h⟩ line hcf, if_pos hcond, rotate_run]
  refine ⟨rfl, rfl, ?_, rfl⟩
  rfl

theorem claim_C3_witness :
    (write_line (List.replicate 52 'x')
      ⟨⟨20, none, 3, true, 0, 0, 0⟩, ⟨some [], fun _ => none⟩, []⟩).1 = Except.ok () ∧
    (write_line (List.replicate 52 'x')
      ⟨⟨20, none, 3, true, 0, 0, 0⟩, ⟨some [], fun _ => none⟩, []⟩).2.rotator.rotations = 0 + 1 ∧
    (write_line (List.replicate 52 'x')
      ⟨⟨20, none, 3, true, 0, 0, 0⟩, ⟨some [], fun _ => none⟩,
        []⟩).2.fs.backups 1 = some ((([] : Content) ++ List.replicate 52 'x') ++ ['\n']) ∧
    (write_line (List.replicate 52 'x')
      ⟨⟨20, none, 3, true, 0, 0, 0⟩, ⟨some [], fun _ => none⟩, []⟩).2.fs.base = some [] :=
  claim_C3 ⟨20, none, 3, true, 0, 0, 0⟩ [] (fun _ => none) (List.replicate 52 'x')
    rfl (by decide) (by decide) (by decide) (by decide)

/-- Claim C8: with the rotate-at-startup option set and a non-empty
pre-existing `base_path`, exactly one rotation runs before any input line
is read, leaving the pre-existing content in `base_path.1` and `base_path`
empty. -/
theorem claim_C8 (ms : Nat) (ml : Option Nat) (mc : Nat) (c : Content)
    (g : Nat → Option Content) (r : LogRotator) (hne : c ≠ []) :
    (startupRun ms ml mc true ⟨r, ⟨some c, g⟩, []⟩).1 = Except.ok () ∧
    (startupRun ms ml mc true ⟨r, ⟨some c, g⟩, []⟩).2.rotator.rotations = 1 ∧
    (startupRun ms ml mc true ⟨r, ⟨some c, g⟩, []⟩).2.fs.backups 1 = some c ∧
    (startupRun ms ml mc true ⟨r, ⟨some c, g⟩, []⟩).2.fs.base = some [] := by
  have hstep : startupRun ms ml mc true ⟨r, ⟨some c, g⟩, []⟩ =
      rotate ⟨⟨ms, ml, mc, true, c.length % u64Size,
        if 0 < c.length % u64Size then countTerminated c % u64Size else 0, 0⟩,
        ⟨some c, g⟩, []⟩ := by
    simp only [startupRun]
    rw [bind_run_ok (newMk_run _ _ _ _ _ _), if_pos trivial]
  rw [hstep, rotate_run]
  exact ⟨rfl, rfl, rfl, rfl⟩

theorem claim_C8_witness :
    (startupRun 0 none 3 true
      ⟨emptyRotator, ⟨some ['a'], fun _ => none⟩, []⟩).1 = Except.ok () ∧
    (startupRun 0 none 3 true
      ⟨emptyRotator, ⟨some ['a'], fun _ => none⟩, []⟩).2.rotator.rotations = 1 ∧
    (startupRun 0 none 3 true
      ⟨emptyRotator, ⟨some ['a'], fun _ => none⟩, []⟩).2.fs.backups 1 = some ['a'] ∧
    (startupRun 0 none 3 true
      ⟨emptyRotator, ⟨some ['a'], fun _ => none⟩, []⟩).2.fs.base = some [] :=
  claim_C8 0 none 3 ['a'] (fun _ => none) emptyRotator (by decide)

/-- Claim C2: a sequence of appended lines whose byte total stays at or
below `max_size_bytes` (when positive) and whose count stays strictly
below `max_lines` (when set) causes no rotation, and every appended line
appears in `base_path` in order. -/
theorem claim_C2 (ms : Nat) (ml : Option Nat) (mc : Nat) (g : Nat → Option Content)
    (ls : List Content)
    (hsize : 0 < ms → totalBytes ls ≤ ms ∧ ms < u64Size)
    (hlines : ∀ mx, ml = some mx → ls.length < mx ∧ mx < u64Size) :
    (writeSeq ls ⟨⟨ms, ml, mc, true, 0, 0, 0⟩, ⟨some [], g⟩, []⟩).1 = Except.ok () ∧
    (writeSeq ls ⟨⟨ms, ml, mc, true, 0, 0, 0⟩, ⟨some [], g⟩, []⟩).2.rotator.rotations = 0 ∧
    (writeSeq ls ⟨⟨ms, ml, mc, true, 0, 0, 0⟩, ⟨some [], g⟩, []⟩).2.fs.base =
      some (joinLines ls) := by
  rw [writeSeq_ok ls ⟨ms, ml, mc, true, 0, 0, 0⟩ [] g rfl
    (show (0 : Nat) < u64Size by decide) (show (0 : Nat) < u64Size by decide)
    (by simpa using hsize) (by simpa using hlines)]
  refine ⟨rfl, rfl, ?_⟩
  simp

theorem claim_C2_witness :
    (writeSeq [['a'], ['b']]
      ⟨⟨0, some 3, 5, true, 0, 0, 0⟩, ⟨some [], fun _ => none⟩, []⟩).1 = Except.ok () ∧
    (writeSeq [['a'], ['b']]
      ⟨⟨0, some 3, 5, true, 0, 0, 0⟩, ⟨some [], fun _ => none⟩,
        []⟩).2.rotator.rotations = 0 ∧
    (writeSeq [['a'], ['b']]
      ⟨⟨0, some 3, 5, true, 0, 0, 0⟩, ⟨some [], fun _ => none⟩, []⟩).2.fs.base =
      some (joinLines [['a'], ['b']]) :=
  claim_C2 0 (some 3) 5 (fun _ => none) [['a'], ['b']]
    (fun h0 => absurd h0 (by decide))
    (by intro mx hmx; injection hmx with hx; subst hx; exact ⟨by decide, by decide⟩)

theorem isSomeAnd_eq_true_iff (p : Nat → Bool) (o : Option Nat) :
    isSomeAnd p o = true ↔ ∃ mx, o = some mx ∧ p mx = true := by
  cases o with
  | none => simp [isSomeAnd]
  | some m => simp [isSomeAnd]

set_option maxHeartbeats 2000000 in
/-- Claim C1: after `write_line` appends a line (live handle), a rotation
is triggered — synchronously, before `write_line` returns — if and only if
`max_size_bytes > 0` and the updated `size_counter` exceeds it, or
`max_lines` is set and the updated `line_counter` reaches it; and in the
concrete `max_lines = 2` example, appending `line 1`, `line 2`, `line 3`
rotates exactly after `line 2`, leaving lines 1–2 in `base_path.1` and
line 3 in `base_path`. -/
theorem claim_C1 :
    (∀ (r : LogRotator) (fs : FS) (line : Content), r.current_file = true →
      ((((0 < r.max_size ∧ r.max_size <
            (r.current_size + (line.length % u64Size + 1) % u64Size) % u64Size) ∨
         (∃ mx, r.max_lines = some mx ∧ mx ≤ (r.current_lines + 1) % u64Size)) →
        (write_line line ⟨r, fs, []⟩).2.rotator.rotations = r.rotations + 1) ∧
       (¬ ((0 < r.max_size ∧ r.max_size <
            (r.current_size + (line.length % u64Size + 1) % u64Size) % u64Size) ∨
         (∃ mx, r.max_lines = some mx ∧ mx ≤ (r.current_lines + 1) % u64Size)) →
        (write_line line ⟨r, fs, []⟩).2.rotator.rotations = r.rotations))) ∧
    (let t1 := write_line ['l','i','n','e',' ','1']
        ⟨⟨0, some 2, 5, true, 0, 0, 0⟩, ⟨some [], fun _ => none⟩, []⟩
     let t2 := write_line ['l','i','n','e',' ','2'] t1.2
     let t3 := write_line ['l','i','n','e',' ','3'] t2.2
     t1.2.rotator.rotations = 0 ∧ t2.2.rotator.rotations = 1 ∧
     t3.2.rotator.rotations = 1 ∧
     t2.2.fs.backups 1 =
       some ['l','i','n','e',' ','1','\n','l','i','n','e',' ','2','\n'] ∧
     t3.2.fs.base = some ['l','i','n','e',' ','3','\n'] ∧
     t3.2.fs.backups 2 = none) := by
  constructor
  · intro r fs line hcf
    have hrun := write_line_run r fs line hcf
    have hiff : ((decide (0 < r.max_size) && decide (r.max_size <
          (r.current_size + (line.length % u64Size + 1) % u64Size) % u64Size))
        || isSomeAnd (fun mx => decide (mx ≤ (r.current_lines + 1) % u64Size))
             r.max_lines) = true ↔
        ((0 < r.max_size ∧ r.max_size <
            (r.current_size + (line.length % u64Size + 1) % u64Size) % u64Size) ∨
         (∃ mx, r.max_lines = some mx ∧ mx ≤ (r.current_lines + 1) % u64Size)) := by
      rw [Bool.or_eq_true, Bool.and_eq_true, isSomeAnd_eq_true_iff]
      simp only [decide_eq_true_eq]
    constructor
    · intro hc
      rw [hrun, if_pos (hiff.mpr hc), rotate_run]
    · intro hc
      have hb : ¬ ((decide (0 < r.max_size) && decide (r.max_size <
            (r.current_size + (line.length % u64Size + 1) % u64Size) % u64Size))
          || isSomeAnd (fun mx => decide (mx ≤ (r.current_lines + 1) % u64Size))
               r.max_lines) = true := fun hcb => hc (hiff.mp hcb)
      rw [hrun, if_neg hb]
  · decide

theorem claim_C1_witness :
    (write_line ['a'] ⟨⟨0, some 1, 5, true, 0, 0, 0⟩,
      ⟨some [], fun _ => none⟩, []⟩).2.rotator.rotations = 0 + 1 :=
  (claim_C1.1 ⟨0, some 1, 5, true, 0, 0, 0⟩ ⟨some [], fun _ => none⟩ ['a'] rfl).1
    (Or.inr ⟨1, rfl, by decide⟩)

/-- Claim C4 (amended: retention count at least 1): for every retention
count `N ≥ 1` and `k > N` rotations from a backup-free start, exactly the
backups `base_path.1 .. base_path.N` exist, holding the `N` most recent
rotation epochs newest-first, and `base_path.(N+1)` does not exist.  (As
stated, the claim fails for retention count `0`: the shift loop is empty
but the copy step still creates `base_path.1` — see the counterexample.) -/
theorem claim_C4 (N ms : Nat) (ml : Option Nat) (cs : List Content)
    (hN : 1 ≤ N) (hk : N < cs.length) :
    (rotateEpochs cs ⟨⟨ms, ml, N, true, 0, 0, 0⟩, ⟨some [], fun _ => none⟩, []⟩).1 =
      Except.ok () ∧
    (∀ j, 1 ≤ j → j ≤ N →
      (rotateEpochs cs ⟨⟨ms, ml, N, true, 0, 0, 0⟩, ⟨some [], fun _ => none⟩,
        []⟩).2.fs.backups j = cs.reverse.get? (j - 1) ∧
      ((rotateEpochs cs ⟨⟨ms, ml, N, true, 0, 0, 0⟩, ⟨some [], fun _ => none⟩,
        []⟩).2.fs.backups j).isSome = true) ∧
    (∀ j, N < j →
      (rotateEpochs cs ⟨⟨ms, ml, N, true, 0, 0, 0⟩, ⟨some [], fun _ => none⟩,
        []⟩).2.fs.backups j = none) := by
  obtain ⟨hok, hbk⟩ := rotateEpochs_run N hN cs [] ⟨ms, ml, N, true, 0, 0, 0⟩
    ⟨some [], fun _ => none⟩ rfl (by intro j hj; simp)
  refine ⟨hok, ?_, ?_⟩
  · intro j h1 hjN
    have hb := hbk j h1
    rw [if_pos hjN] at hb
    simp only [List.nil_append] at hb
    refine ⟨hb, ?_⟩
    rw [hb]
    rcases hg : cs.reverse.get? (j - 1) with _ | v
    · rw [List.get?_eq_none] at hg
      rw [List.length_reverse] at hg
      omega
    · rfl
  · intro j hjN
    have hb := hbk j (by omega)
    rwa [if_neg (by omega)] at hb

/-- Claim C4 counterexample: with retention count `0`, one successful
rotation still creates `base_path.1` (the shift loop is empty, but the
copy step runs unconditionally), so it is not the case that exactly `0`
backups exist and `base_path.(0+1)` is absent. -/
theorem claim_C4_counterexample :
    (rotateEpochs [['a', '\n']]
      ⟨⟨0, none, 0, true, 0, 0, 0⟩, ⟨some [], fun _ => none⟩, []⟩).1 = Except.ok () ∧
    (rotateEpochs [['a', '\n']]
      ⟨⟨0, none, 0, true, 0, 0, 0⟩, ⟨some [], fun _ => none⟩,
        []⟩).2.fs.backups (0 + 1) = some ['a', '\n'] ∧
    ¬ ((rotateEpochs [['a', '\n']]
      ⟨⟨0, none, 0, true, 0, 0, 0⟩, ⟨some [], fun _ => none⟩,
        []⟩).2.fs.backups (0 + 1) = none) := by
  refine ⟨by decide, by decide, by decide⟩

theorem claim_C4_witness :
    ((rotateEpochs [['a'], ['b']]
      ⟨⟨0, none, 1, true, 0, 0, 0⟩, ⟨some [], fun _ => none⟩, []⟩).1 = Except.ok ()) ∧
    ((rotateEpochs [['a'], ['b']]
      ⟨⟨0, none, 1, true, 0, 0, 0⟩, ⟨some [], fun _ => none⟩,
        []⟩).2.fs.backups 1 = some ['b']) ∧
    ((rotateEpochs [['a'], ['b']]
      ⟨⟨0, none, 1, true, 0, 0, 0⟩, ⟨some [], fun _ => none⟩,
        []⟩).2.fs.backups 2 = none) := by
  have h := claim_C4 1 0 none [['a'], ['b']] (by decide) (by decide)
  exact ⟨h.1, ((h.2.1 1 (by decide) (by decide)).1).trans (by decide),
         h.2.2 2 (by decide)⟩

/-- Claim C9: every file-system error arising during `write_line` or
`rotate` — whichever primitive call it strikes — makes the operation
return that error to its caller immediately: the run either never reaches
the failing call, or returns exactly that error having consumed the oracle
only up to it, with no retry and no repair (no soft error path). -/
theorem claim_C9 (line : Content) (s : RotSt) (k : Nat) (e : Err)
    (rest : List (Option Err)) (hbase : s.fs.base.isSome = true)
    (horc : s.oracle = List.replicate k none ++ some e :: rest) :
    (((∃ u, (write_line line s).1 = Except.ok u) ∧
        ∃ j, (write_line line s).2.oracle = List.replicate j none ++ some e :: rest) ∨
      ((write_line line s).1 = Except.error e ∧ (write_line line s).2.oracle = rest)) ∧
    (((∃ u, (rotate s).1 = Except.ok u) ∧
        ∃ j, (rotate s).2.oracle = List.replicate j none ++ some e :: rest) ∨
      ((rotate s).1 = Except.error e ∧ (rotate s).2.oracle = rest)) := by
  constructor
  · rcases pe_write_line line s k e rest hbase horc with ⟨hok, _, hj⟩ | herr
    · exact Or.inl ⟨hok, hj⟩
    · exact Or.inr herr
  · rcases pe_rotate s k e rest hbase horc with ⟨hok, _, hj⟩ | herr
    · exact Or.inl ⟨hok, hj⟩
    · exact Or.inr herr

theorem claim_C9_witness :
    (write_line ['a'] ⟨⟨0, none, 5, true, 0, 0, 0⟩, ⟨some [], fun _ => none⟩,
      [some (Err.injected 7)]⟩).1 = Except.error (Err.injected 7) ∧
    (write_line ['a'] ⟨⟨0, none, 5, true, 0, 0, 0⟩, ⟨some [], fun _ => none⟩,
      [some (Err.injected 7)]⟩).2.oracle = [] ∧
    (rotate ⟨⟨0, none, 5, true, 0, 0, 0⟩, ⟨some [], fun _ => none⟩,
      [some (Err.injected 7)]⟩).1 = Except.error (Err.injected 7) ∧
    (rotate ⟨⟨0, none, 5, true, 0, 0, 0⟩, ⟨some [], fun _ => none⟩,
      [some (Err.injected 7)]⟩).2.oracle = [] := by
  have h := claim_C9 ['a'] ⟨⟨0, none, 5, true, 0, 0, 0⟩, ⟨some [], fun _ => none⟩,
    [some (Err.injected 7)]⟩ 0 (Err.injected 7) [] rfl rfl
  have hw : (write_line ['a'] ⟨⟨0, none, 5, true, 0, 0, 0⟩, ⟨some [], fun _ => none⟩,
      [some (Err.injected 7)]⟩).1 = Except.error (Err.injected 7) := by decide
  have hr : (rotate ⟨⟨0, none, 5, true, 0, 0, 0⟩, ⟨some [], fun _ => none⟩,
      [some (Err.injected 7)]⟩).1 = Except.error (Err.injected 7) := by decide
  refine ⟨hw, ?_, hr, ?_⟩
  · rcases h.1 with ⟨⟨u, hu⟩, _⟩ | ⟨_, ho⟩
    · rw [hw] at hu
      exact Except.noConfusion hu
    · exact ho
  · rcases h.2 with ⟨⟨u, hu⟩, _⟩ | ⟨_, ho⟩
    · rw [hr] at hu
      exact Except.noConfusion hu
    · exact ho

theorem prim_run_some (eff : FS → FS) (r : LogRotator) (fs : FS) (os : List (Option Err)) :
    prim eff ⟨r, fs, none :: os⟩ = (Except.ok (), ⟨r, eff fs, os⟩) := rfl

theorem prim_run_err (eff : FS → FS) (r : LogRotator) (fs : FS) (e : Err)
    (os : List (Option Err)) :
    prim eff ⟨r, fs, some e :: os⟩ = (Except.error e, ⟨r, fs, os⟩) := rfl

theorem bind_run_err {α β : Type} {m : M α} {s s₁ : RotSt} {e : Err}
    (hm : m s = (Except.error e, s₁)) (f : α → M β) : (m >>= f) s = (Except.error e, s₁) := by
  rw [bind_run, hm]

/-- Claim C10: if any of the three fallible steps inside `write_line`'s
write phase (line bytes, newline byte, flush) fails, `write_line` returns
the error with `size_counter` and `line_counter` unchanged: the counter
increments happen only after all three have succeeded. -/
theorem claim_C10 (r : LogRotator) (fs : FS) (line : Content) (e : Err) (k : Nat)
    (hk : k < 3) (hcf : r.current_file = true) :
    (write_line line ⟨r, fs, List.replicate k none ++ [some e]⟩).1 = Except.error e ∧
    (write_line line ⟨r, fs,
      List.replicate k none ++ [some e]⟩).2.rotator.current_size = r.current_size ∧
    (write_line line ⟨r, fs,
      List.replicate k none ++ [some e]⟩).2.rotator.current_lines = r.current_lines := by
  obtain ⟨ms, ml, mc, cf, cs, cl, ro⟩ := r
  subst hcf
  interval_cases k
  · simp only [List.replicate, List.nil_append, write_line, bind_run, getSt]
    rw [if_pos trivial]
    rw [bind_run_err (prim_run_err _ _ _ _ _)]
    exact ⟨rfl, rfl, rfl⟩
  · simp only [List.replicate, List.cons_append, List.nil_append, write_line, bind_run, getSt]
    rw [if_pos trivial]
    rw [bind_run_ok (prim_run_some _ _ _ _)]
    rw [bind_run_err (prim_run_err _ _ _ _ _)]
    exact ⟨rfl, rfl, rfl⟩
  · simp only [List.replicate, List.cons_append, List.nil_append, write_line, bind_run, getSt]
    rw [if_pos trivial]
    rw [bind_run_ok (prim_run_some _ _ _ _)]
    rw [bind_run_ok (prim_run_some _ _ _ _)]
    rw [bind_run_err (prim_run_err _ _ _ _ _)]
    exact ⟨rfl, rfl, rfl⟩

theorem claim_C10_witness :
    (write_line ['a'] ⟨⟨0, none, 5, true, 7, 3, 0⟩, ⟨some [], fun _ => none⟩,
      List.replicate 2 none ++ [some (Err.injected 9)]⟩).1 =
        Except.error (Err.injected 9) ∧
    (write_line ['a'] ⟨⟨0, none, 5, true, 7, 3, 0⟩, ⟨some [], fun _ => none⟩,
      List.replicate 2 none ++ [some (Err.injected 9)]⟩).2.rotator.current_size = 7 ∧
    (write_line ['a'] ⟨⟨0, none, 5, true, 7, 3, 0⟩, ⟨some [], fun _ => none⟩,
      List.replicate 2 none ++ [some (Err.injected 9)]⟩).2.rotator.current_lines = 3 :=
  claim_C10 ⟨0, none, 5, true, 7, 3, 0⟩ ⟨some [], fun _ => none⟩ ['a']
    (Err.injected 9) 2 (by decide) rfl

theorem writeSeq_append_ok : ∀ (xs : List Content) {s s₁ : RotSt},
    writeSeq xs s = (Except.ok (), s₁) → ∀ ys : List Content,
    writeSeq (xs ++ ys) s = writeSeq ys s₁ := by
  intro xs
  induction xs with
  | nil =>
      intro s s₁ hxs ys
      have h := hxs
      rw [show writeSeq [] s = (Except.ok (), s) from rfl] at h
      obtain rfl : s = s₁ := congrArg Prod.snd h
      rfl
  | cons x xs ih =>
      intro s s₁ hxs ys
      rcases hw : write_line x s with ⟨res, sm⟩
      cases res with
      | error e =>
          rw [show writeSeq (x :: xs) s = (write_line x >>= fun _ => writeSeq xs) s from rfl,
             bind_run_err hw] at hxs
          exact absurd (congrArg Prod.fst hxs) (by simp)
      | ok a =>
          rw [show writeSeq (x :: xs) s = (write_line x >>= fun _ => writeSeq xs) s from rfl,
             bind_run_ok hw] at hxs
          show (write_line x >>= fun _ => writeSeq (xs ++ ys)) s = _
          rw [bind_run_ok hw]
          exact ih hxs ys

set_option maxHeartbeats 1000000 in
/-- Claim C7: constructing against a pre-existing file seeds
`line_counter` with exactly its number of newline-terminated line
sequences (`M`) and `size_counter` with exactly its byte length, so with
`max_lines = L` (and size rotation disabled) rotation first triggers
exactly when `M` plus the newly appended lines reaches `L`: never while
`M + appended < L`, and exactly once when `M + appended = L`. -/
theorem claim_C7 (c : Content) (L M mc : Nat) (g : Nat → Option Content) (r : LogRotator)
    (hM : c.count '\n' = M) (hML : M < L) (hLU : L < u64Size) (hcU : c.length < u64Size) :
    ((newMk 0 (some L) mc ⟨r, ⟨some c, g⟩, []⟩).2.rotator.current_lines = M ∧
     (newMk 0 (some L) mc ⟨r, ⟨some c, g⟩, []⟩).2.rotator.current_size = c.length) ∧
    (∀ ls : List Content, M + ls.length < L →
      (writeSeq ls (newMk 0 (some L) mc ⟨r, ⟨some c, g⟩, []⟩).2).2.rotator.rotations = 0) ∧
    (∀ ls : List Content, ls ≠ [] → M + ls.length = L →
      (writeSeq ls (newMk 0 (some L) mc ⟨r, ⟨some c, g⟩, []⟩).2).2.rotator.rotations = 1) := by
  have h1 : c.length % u64Size = c.length := Nat.mod_eq_of_lt hcU
  have h2 : (if 0 < c.length % u64Size then countTerminated c % u64Size else 0) = M := by
    rw [h1]
    by_cases h0 : 0 < c.length
    · rw [if_pos h0, countTerminated_eq_count, hM, Nat.mod_eq_of_lt (by omega)]
    · rw [if_neg h0]
      have hc0 : c = [] := List.eq_nil_of_length_eq_zero (by omega)
      subst hc0
      simpa using hM
  have hnew : newMk 0 (some L) mc ⟨r, ⟨some c, g⟩, []⟩ =
      (Except.ok (), ⟨⟨0, some L, mc, true, c.length, M, 0⟩, ⟨some c, g⟩, []⟩) := by
    rw [newMk_run, h2, h1]
  refine ⟨?_, ?_, ?_⟩
  · rw [hnew]
    exact ⟨rfl, rfl⟩
  · intro ls hlen
    rw [hnew]
    rw [writeSeq_ok ls ⟨0, some L, mc, true, c.length, M, 0⟩ c g rfl hcU
      (show M < u64Size by omega)
      (fun h0 => absurd h0 (show ¬ (0 : Nat) < 0 by omega))
      (by intro mx hmx; injection hmx with hx; subst hx
          exact ⟨show M + ls.length < L by omega, hLU⟩)]
  · intro ls hne hsum
    obtain ⟨init, last, hconcat⟩ := (List.eq_nil_or_concat' ls).resolve_left hne
    subst hconcat
    have hlen : init.length + 1 = (init ++ [last]).length := by simp
    rw [hnew]
    have hinit : writeSeq init ⟨⟨0, some L, mc, true, c.length, M, 0⟩, ⟨some c, g⟩, []⟩ =
        (Except.ok (), ⟨⟨0, some L, mc, true,
          (c.length + modTotalBytes init) % u64Size, (M + init.length) % u64Size, 0⟩,
          ⟨some (c ++ joinLines init), g⟩, []⟩) :=
      writeSeq_ok init ⟨0, some L, mc, true, c.length, M, 0⟩ c g rfl hcU
        (show M < u64Size by omega)
        (fun h0 => absurd h0 (show ¬ (0 : Nat) < 0 by omega))
        (by intro mx hmx; injection hmx with hx; subst hx
            exact ⟨show M + init.length < L by omega, hLU⟩)
    show (writeSeq (init ++ [last]) _).2.rotator.rotations = 1
    rw [writeSeq_append_ok init hinit [last]]
    have hcl2 : ((M + init.length) % u64Size + 1) % u64Size = L := by
      rw [Nat.mod_eq_of_lt (show M + init.length < u64Size by omega)]
      rw [show M + init.length + 1 = L from by omega]
      exact Nat.mod_eq_of_lt hLU
    have hcond : ((decide (0 < (0 : Nat)) && decide ((0 : Nat) <
        ((c.length + modTotalBytes init) % u64Size +
          (last.length % u64Size + 1) % u64Size) % u64Size))
       || isSomeAnd (fun mx => decide (mx ≤ ((M + init.length) % u64Size + 1) % u64Size))
            (some L)) = true := by
      rw [Bool.or_eq_true]
      right
      show decide (L ≤ ((M + init.length) % u64Size + 1) % u64Size) = true
      rw [hcl2]
      simp
    have hwl : write_line last ⟨⟨0, some L, mc, true,
        (c.length + modTotalBytes init) % u64Size, (M + init.length) % u64Size, 0⟩,
        ⟨some (c ++ joinLines init), g⟩, []⟩ =
        rotate ⟨⟨0, some L, mc, true,
          ((c.length + modTotalBytes init) % u64Size +
            (last.length % u64Size + 1) % u64Size) % u64Size,
          ((M + init.length) % u64Size + 1) % u64Size, 0⟩,
          ⟨some (((c ++ joinLines init) ++ last) ++ ['\n']), g⟩, []⟩ := by
      rw [write_line_run _ _ _ rfl]
      dsimp only
      rw [if_pos hcond]
      rfl
    have hfull : write_line last ⟨⟨0, some L, mc, true,
        (c.length + modTotalBytes init) % u64Size, (M + init.length) % u64Size, 0⟩,
        ⟨some (c ++ joinLines init), g⟩, []⟩ =
        (Except.ok (), ⟨⟨0, some L, mc, true, 0, 0, 1⟩,
          ⟨some [], fun j => if j = 1 then some (((c ++ joinLines init) ++ last) ++ ['\n'])
            else shiftPure mc (fun x => g x) mc j⟩, []⟩) := by
      rw [hwl, rotate_run]
    show ((write_line last >>= fun _ => writeSeq []) _).2.rotator.rotations = 1
    rw [bind_run_ok hfull]
    rfl

theorem claim_C7_witness :
    ((newMk 0 (some 3) 5
      ⟨emptyRotator, ⟨some ['a','\n','b','\n'], fun _ => none⟩,
        []⟩).2.rotator.current_lines = 2) ∧
    ((newMk 0 (some 3) 5
      ⟨emptyRotator, ⟨some ['a','\n','b','\n'], fun _ => none⟩,
        []⟩).2.rotator.current_size = 4) ∧
    ((writeSeq [] (newMk 0 (some 3) 5
      ⟨emptyRotator, ⟨some ['a','\n','b','\n'], fun _ => none⟩,
        []⟩).2).2.rotator.rotations = 0) ∧
    ((writeSeq [['x']] (newMk 0 (some 3) 5
      ⟨emptyRotator, ⟨some ['a','\n','b','\n'], fun _ => none⟩,
        []⟩).2).2.rotator.rotations = 1) := by
  have h := claim_C7 ['a','\n','b','\n'] 3 2 5 (fun _ => none) emptyRotator
    (by decide) (by decide) (by decide) (by decide)
  exact ⟨h.1.1, h.1.2.trans (by decide), h.2.1 [] (by decide),
         h.2.2 [['x']] (by decide) (by decide)⟩

theorem claim_C6_witness :
    (rotate ⟨emptyRotator, ⟨some ['a'], fun _ => none⟩, []⟩).1 = Except.ok () ∧
    (rotate ⟨emptyRotator, ⟨some ['a'], fun _ => none⟩, []⟩).2.rotator.current_size = 0 ∧
    (rotate ⟨emptyRotator, ⟨some ['a'], fun _ => none⟩, []⟩).2.rotator.current_lines = 0 ∧
    (rotate ⟨emptyRotator, ⟨some ['a'], fun _ => none⟩, []⟩).2.rotator.current_file = true ∧
    (rotate ⟨emptyRotator, ⟨some ['a'], fun _ => none⟩, []⟩).2.fs.base = some [] :=
  claim_C6 emptyRotator ['a'] (fun _ => none)
